import Mathlib

/-!
Verification of the segmentation and equation-reconstruction pipeline of the
Handwritten-Equation-Solver repository
(`Server/digit_reco_server/python_utils/segment.py` and `sympySolver.py`).

The raster is the mutable grayscale image `gray_image`; coordinates are
`(row, column)` pairs of integers, where the row is the first numpy axis
(vertical) and the column is the second (horizontal).  In the source, `dfs(a,b)`
tracks the first coordinate in the variables `xmin`/`xmax` and the second in
`ymin`/`ymax`.
-/

/-- A raster is a total intensity map on integer coordinates (row, column); the
source only ever reads in-bounds pixels. -/
abbrev Raster := Int → Int → Nat

/-- The running bounding box of `dfs`: `xmin`/`xmax` bound the first (row)
coordinate and `ymin`/`ymax` bound the second (column) coordinate, exactly as
the like-named globals in the source. -/
structure BB where
  xmin : Int
  xmax : Int
  ymin : Int
  ymax : Int
deriving Repr, DecidableEq

/-- In-bounds predicate for a pixel of an `H × W` raster, mirroring the guard
`i+x>=0 and i+x<shape[0] and y+j>=0 and y+j<shape[1]`. -/
def inB (H W : Nat) (p : Int × Int) : Prop :=
  0 ≤ p.1 ∧ p.1 < (H : Int) ∧ 0 ≤ p.2 ∧ p.2 < (W : Int)

instance (H W : Nat) (p : Int × Int) : Decidable (inB H W p) := by
  unfold inB; infer_instance

/-- The nine neighbor offsets pushed by `dfs` (`for i in range(-1,2): for j in
range(-1,2)`), in source iteration order; note the source pushes the pixel
itself (offset `(0,0)`) as well. -/
def offs : List (Int × Int) :=
  [(-1,-1),(-1,0),(-1,1),(0,-1),(0,0),(0,1),(1,-1),(1,0),(1,1)]

/-- Push all in-bounds neighbors of `p` onto the stack.  The source appends to
the end of a python list and pops from the end; with a head-is-top stack this is
the reversed candidate list consed in front. -/
def pushN (H W : Nat) (p : Int × Int) (rest : List (Int × Int)) : List (Int × Int) :=
  ((offs.filterMap fun d =>
      if 0 ≤ p.1 + d.1 ∧ p.1 + d.1 < (H : Int) ∧ 0 ≤ p.2 + d.2 ∧ p.2 + d.2 < (W : Int)
      then some (p.1 + d.1, p.2 + d.2) else none)).reverse ++ rest

/-- Overwrite one pixel with the background value 255
(`gray_image[x][y] = 255`). -/
def erase1 (r : Raster) (p : Int × Int) : Raster :=
  fun a b => if a = p.1 ∧ b = p.2 then 255 else r a b

/-- Extend the running bounding box with a popped pixel (`ymax = max(y, ymax)`
and the three analogous updates). -/
def extendBB (bb : BB) (p : Int × Int) : BB :=
  ⟨min bb.xmin p.1, max bb.xmax p.1, min bb.ymin p.2, max bb.ymax p.2⟩

/-- The `while len(stack)` loop of `dfs`, with explicit fuel.  On every pop the
bounding box is extended; a pixel that is already background (`> 123`) is
discarded, otherwise it is erased to 255 and all nine in-bounds neighbors are
pushed. -/
def dfsLoop (H W : Nat) : Nat → Raster → List (Int × Int) → BB → Option (Raster × BB)
  | _, r, [], bb => some (r, bb)
  | 0, _, _ :: _, _ => none
  | fuel+1, r, p :: rest, bb =>
      let bb' := extendBB bb p
      if r p.1 p.2 > 123 then dfsLoop H W fuel r rest bb'
      else dfsLoop H W fuel (erase1 r p) (pushN H W p rest) bb'

/-- Number of ink pixels (value `≤ 123`) of the `H × W` raster. -/
def inkCount (H W : Nat) (r : Raster) : Nat :=
  ((Finset.range H ×ˢ Finset.range W).filter
    (fun q : Nat × Nat => r (q.1 : Int) (q.2 : Int) ≤ 123)).card

/-- The `dfs(a,b)` flood fill: initial stack `[(a,b)]`, initial bounding box
`ymin,ymax = b,b` and `xmax,xmin = a,a`.  The fuel `9 * inkCount + 2` always
suffices (each pop either consumes one stack entry or erases one ink pixel
while pushing at most nine entries). -/
def dfs (H W : Nat) (r : Raster) (a b : Int) : Option (Raster × BB) :=
  dfsLoop H W (9 * inkCount H W r + 2) r [(a, b)] ⟨a, a, b, b⟩

/-- The value `return (ymax-ymin)` of `dfs`: the extent of the running bounding
box along its second (column) coordinate. -/
def dfsRet (H W : Nat) (r : Raster) (a b : Int) : Option Int :=
  (dfs H W r a b).map fun z => z.2.ymax - z.2.ymin

/-- 8-adjacency of pixels (both coordinate distances at most one); the source's
neighbor set also contains the pixel itself, which this includes. -/
def adjP (p q : Int × Int) : Prop :=
  (p.1 - q.1).natAbs ≤ 1 ∧ (p.2 - q.2).natAbs ≤ 1

instance (p q : Int × Int) : Decidable (adjP p q) := by
  unfold adjP; infer_instance

/-- A pixel that the scan/flood fill treats as ink: in bounds and of value
`≤ 123`. -/
def okPix (H W : Nat) (r : Raster) (p : Int × Int) : Prop :=
  inB H W p ∧ r p.1 p.2 ≤ 123

instance (H W : Nat) (r : Raster) (p : Int × Int) : Decidable (okPix H W r p) := by
  unfold okPix; infer_instance

/-- Connectivity through 8-adjacent ink pixels: `Conn H W r s t` holds when
there is a path from `s` to `t` all of whose pixels are in-bounds ink pixels of
`r`.  `Conn H W r s` describes the 8-connected ink component of `s`. -/
inductive Conn (H W : Nat) (r : Raster) : Int × Int → Int × Int → Prop
  | refl (p : Int × Int) : okPix H W r p → Conn H W r p p
  | step (p q t : Int × Int) :
      okPix H W r p → adjP p q → Conn H W r q t → Conn H W r p t

/-- Membership of a pixel in a bounding box. -/
def inBB (bb : BB) (p : Int × Int) : Prop :=
  bb.xmin ≤ p.1 ∧ p.1 ≤ bb.xmax ∧ bb.ymin ≤ p.2 ∧ p.2 ≤ bb.ymax

lemma conn_head_ok {H W : Nat} {r : Raster} {s t : Int × Int}
    (h : Conn H W r s t) : okPix H W r s := by
  cases h with
  | refl _ hp => exact hp
  | step _ _ _ hp _ _ => exact hp

lemma conn_target_ok {H W : Nat} {r : Raster} {s t : Int × Int}
    (h : Conn H W r s t) : okPix H W r t := by
  induction h with
  | refl _ hp => exact hp
  | step _ _ _ _ _ _ ih => exact ih

lemma conn_snoc {H W : Nat} {r : Raster} {s e p : Int × Int}
    (h : Conn H W r s e) (hadj : adjP e p) (hp : okPix H W r p) :
    Conn H W r s p := by
  induction h with
  | refl q hq => exact Conn.step q p p hq hadj (Conn.refl p hp)
  | step q q' t hq hqq' _ ih => exact Conn.step q q' p hq hqq' (ih hadj)

lemma erase1_self (r : Raster) (p : Int × Int) : erase1 r p p.1 p.2 = 255 := by
  simp [erase1]

lemma erase1_other {r : Raster} {p : Int × Int} {a b : Int}
    (h : ¬(a = p.1 ∧ b = p.2)) : erase1 r p a b = r a b := by
  simp [erase1, h]

lemma erase1_ne {r : Raster} {p q : Int × Int} (h : q ≠ p) :
    erase1 r p q.1 q.2 = r q.1 q.2 := by
  apply erase1_other
  intro hc
  exact h (Prod.ext hc.1 hc.2)

lemma mem_pushN {H W : Nat} {p q : Int × Int} {rest : List (Int × Int)} :
    q ∈ pushN H W p rest ↔ (adjP p q ∧ inB H W q) ∨ q ∈ rest := by
  unfold pushN
  rw [List.mem_append, List.mem_reverse, List.mem_filterMap]
  constructor
  · rintro (⟨d, hd, hfd⟩ | hq)
    · left
      split at hfd
      · rename_i hbounds
        cases hfd
        constructor
        · fin_cases hd <;> constructor <;> simp [adjP]
        · exact ⟨hbounds.1, hbounds.2.1, hbounds.2.2.1, hbounds.2.2.2⟩
      · exact absurd hfd (by simp)
    · right; exact hq
  · rintro (⟨hadj, hin⟩ | hq)
    · left
      refine ⟨(q.1 - p.1, q.2 - p.2), ?_, ?_⟩
      · obtain ⟨h1, h2⟩ := hadj
        have e1 : q.1 - p.1 = -1 ∨ q.1 - p.1 = 0 ∨ q.1 - p.1 = 1 := by omega
        have e2 : q.2 - p.2 = -1 ∨ q.2 - p.2 = 0 ∨ q.2 - p.2 = 1 := by omega
        rcases e1 with h | h | h <;> rcases e2 with h' | h' | h' <;>
          simp [offs, Prod.ext_iff, h, h']
      · have hb : 0 ≤ p.1 + (q.1 - p.1) ∧ p.1 + (q.1 - p.1) < (H : Int) ∧
            0 ≤ p.2 + (q.2 - p.2) ∧ p.2 + (q.2 - p.2) < (W : Int) := by
          obtain ⟨b1, b2, b3, b4⟩ := hin
          constructor
          · omega
          · exact ⟨by omega, by omega, by omega⟩
        rw [if_pos hb]
        congr 1
        exact Prod.ext (by omega) (by omega)
    · right; exact hq

lemma pushN_length {H W : Nat} (p : Int × Int) (rest : List (Int × Int)) :
    (pushN H W p rest).length ≤ 9 + rest.length := by
  unfold pushN
  rw [List.length_append, List.length_reverse]
  have h := List.length_filterMap_le
    (fun d : Int × Int =>
      if 0 ≤ p.1 + d.1 ∧ p.1 + d.1 < (H : Int) ∧ 0 ≤ p.2 + d.2 ∧ p.2 + d.2 < (W : Int)
      then some (p.1 + d.1, p.2 + d.2) else none) offs
  have h9 : offs.length = 9 := rfl
  omega

lemma inkCount_erase {H W : Nat} {r : Raster} {p : Int × Int}
    (hin : inB H W p) (hink : r p.1 p.2 ≤ 123) :
    inkCount H W (erase1 r p) + 1 = inkCount H W r := by
  classical
  obtain ⟨h1, h2, h3, h4⟩ := hin
  set s : Finset (Nat × Nat) := Finset.range H ×ˢ Finset.range W with hs
  set a : Nat × Nat := (p.1.toNat, p.2.toNat) with ha
  have hcast1 : (a.1 : Int) = p.1 := Int.toNat_of_nonneg h1
  have hcast2 : (a.2 : Int) = p.2 := Int.toNat_of_nonneg h3
  have hmem : a ∈ s := by
    rw [hs, Finset.mem_product, Finset.mem_range, Finset.mem_range]
    omega
  have hkey : s.filter (fun q : Nat × Nat => erase1 r p (q.1 : Int) (q.2 : Int) ≤ 123) =
      (s.filter (fun q : Nat × Nat => r (q.1 : Int) (q.2 : Int) ≤ 123)).erase a := by
    ext q
    rw [Finset.mem_erase, Finset.mem_filter, Finset.mem_filter]
    by_cases hq : q = a
    · subst hq
      rw [hcast1, hcast2, erase1_self]
      simp
    · have hne : ¬((q.1 : Int) = p.1 ∧ (q.2 : Int) = p.2) := by
        intro hc
        apply hq
        have : q.1 = a.1 := by omega
        have : q.2 = a.2 := by omega
        exact Prod.ext (by omega) (by omega)
      rw [erase1_other hne]
      tauto
  have hmemf : a ∈ s.filter (fun q : Nat × Nat => r (q.1 : Int) (q.2 : Int) ≤ 123) := by
    rw [Finset.mem_filter, hcast1, hcast2]
    exact ⟨hmem, hink⟩
  unfold inkCount
  rw [← hs, hkey, Finset.card_erase_of_mem hmemf]
  have hpos := Finset.card_pos.mpr ⟨a, hmemf⟩
  omega

lemma dfsLoop_total {H W : Nat} :
    ∀ (fuel : Nat) (r : Raster) (st : List (Int × Int)) (bb : BB),
      (∀ q ∈ st, inB H W q) →
      9 * inkCount H W r + st.length < fuel →
      ∃ res, dfsLoop H W fuel r st bb = some res := by
  intro fuel
  induction fuel with
  | zero => intro r st bb _ hlt; omega
  | succ n ih =>
    intro r st bb hst hlt
    cases st with
    | nil => exact ⟨(r, bb), rfl⟩
    | cons p rest =>
      rw [dfsLoop]
      by_cases hbg : r p.1 p.2 > 123
      · rw [if_pos hbg]
        apply ih r rest _ (fun q hq => hst q (List.mem_cons_of_mem p hq))
        simp only [List.length_cons] at hlt
        omega
      · rw [if_neg hbg]
        have hink : r p.1 p.2 ≤ 123 := by omega
        have hinp : inB H W p := hst p (List.mem_cons_self p rest)
        apply ih (erase1 r p) (pushN H W p rest) _
        · intro q hq
          rcases mem_pushN.mp hq with ⟨_, hb⟩ | hq'
          · exact hb
          · exact hst q (List.mem_cons_of_mem p hq')
        · have hdec := inkCount_erase hinp hink
          have hlen := pushN_length (H := H) (W := W) p rest
          simp only [List.length_cons] at hlt
          omega

lemma okPix_erase_of_ne {H W : Nat} {r : Raster} {p q : Int × Int}
    (h : okPix H W r q) (hne : q ≠ p) : okPix H W (erase1 r p) q := by
  refine ⟨h.1, ?_⟩
  rw [erase1_ne hne]
  exact h.2

lemma conn_erase {H W : Nat} {r : Raster} {q t : Int × Int} (p : Int × Int)
    (h : Conn H W r q t) :
    Conn H W (erase1 r p) q t ∨ t = p ∨
      ∃ q', adjP p q' ∧ Conn H W (erase1 r p) q' t := by
  induction h with
  | refl v hv =>
    by_cases hvp : v = p
    · right; left; exact hvp
    · left; exact Conn.refl v (okPix_erase_of_ne hv hvp)
  | step v v' t hv hadj hconn ih =>
    rcases ih with hleft | hmid | ⟨q', hq'adj, hq'conn⟩
    · by_cases hvp : v = p
      · right; right
        refine ⟨v', ?_, hleft⟩
        rw [← hvp]; exact hadj
      · left
        exact Conn.step v v' t (okPix_erase_of_ne hv hvp) hadj hleft
    · right; left; exact hmid
    · right; right; exact ⟨q', hq'adj, hq'conn⟩

/-- The invariant carried through `dfsLoop` for the flood-fill correctness
proofs.  `r0` is the raster as it was when the fill started at `s`; `L`/`R` are
any bounds on the column coordinate of the component of `s`. -/
structure DfsInv (H W : Nat) (r0 : Raster) (s : Int × Int) (L R : Int)
    (r : Raster) (st : List (Int × Int)) (bb : BB) : Prop where
  sound : ∀ q : Int × Int, r q.1 q.2 ≠ r0 q.1 q.2 →
    r q.1 q.2 = 255 ∧ okPix H W r0 q ∧ Conn H W r0 s q
  stackInv : ∀ q ∈ st, inB H W q ∧
    (q = s ∨ ∃ e : Int × Int, r e.1 e.2 ≠ r0 e.1 e.2 ∧ adjP e q)
  compl : ∀ t : Int × Int, Conn H W r0 s t →
    r t.1 t.2 = 255 ∨ ∃ q ∈ st, Conn H W r q t
  erasedBB : ∀ q : Int × Int, r q.1 q.2 ≠ r0 q.1 q.2 → inBB bb q
  colLo : L - 1 ≤ bb.ymin
  colHi : bb.ymax ≤ R + 1

lemma inBB_extend {bb : BB} {p q : Int × Int} (h : inBB bb q) :
    inBB (extendBB bb p) q := by
  obtain ⟨h1, h2, h3, h4⟩ := h
  refine ⟨?_, ?_, ?_, ?_⟩ <;> simp [extendBB] <;> omega

lemma inBB_extend_self (bb : BB) (p : Int × Int) : inBB (extendBB bb p) p := by
  refine ⟨?_, ?_, ?_, ?_⟩ <;> simp [extendBB]

lemma dfsInv_col_of_stack {H W : Nat} {r0 : Raster} {s : Int × Int} {L R : Int}
    {r : Raster} {st : List (Int × Int)} {bb : BB}
    (hs : okPix H W r0 s)
    (hLR : ∀ t : Int × Int, Conn H W r0 s t → L ≤ t.2 ∧ t.2 ≤ R)
    (inv : DfsInv H W r0 s L R r st bb)
    {p : Int × Int} (hp : p ∈ st) : L - 1 ≤ p.2 ∧ p.2 ≤ R + 1 := by
  rcases (inv.stackInv p hp).2 with hps | ⟨e, hche, hadje⟩
  · have := hLR s (Conn.refl s hs)
    subst hps
    omega
  · have hce := (inv.sound e hche).2.2
    have := hLR e hce
    have h2 := hadje.2
    omega

lemma dfsLoop_inv {H W : Nat} {r0 : Raster} {s : Int × Int} {L R : Int}
    (hs : okPix H W r0 s)
    (hLR : ∀ t : Int × Int, Conn H W r0 s t → L ≤ t.2 ∧ t.2 ≤ R) :
    ∀ (fuel : Nat) (r : Raster) (st : List (Int × Int)) (bb : BB)
      (res : Raster × BB),
      DfsInv H W r0 s L R r st bb →
      dfsLoop H W fuel r st bb = some res →
      (∀ q : Int × Int, res.1 q.1 q.2 ≠ r0 q.1 q.2 →
          res.1 q.1 q.2 = 255 ∧ okPix H W r0 q ∧ Conn H W r0 s q) ∧
      (∀ t : Int × Int, Conn H W r0 s t → res.1 t.1 t.2 = 255) ∧
      (∀ q : Int × Int, res.1 q.1 q.2 ≠ r0 q.1 q.2 → inBB res.2 q) ∧
      (L - 1 ≤ res.2.ymin ∧ res.2.ymax ≤ R + 1) := by
  intro fuel
  induction fuel with
  | zero =>
    intro r st bb res inv heq
    cases st with
    | nil =>
      simp only [dfsLoop, Option.some.injEq] at heq
      subst heq
      refine ⟨inv.sound, ?_, inv.erasedBB, inv.colLo, inv.colHi⟩
      intro t ht
      rcases inv.compl t ht with h255 | ⟨q, hq, _⟩
      · exact h255
      · exact absurd hq (List.not_mem_nil q)
    | cons p rest => simp [dfsLoop] at heq
  | succ n ih =>
    intro r st bb res inv heq
    cases st with
    | nil =>
      simp only [dfsLoop, Option.some.injEq] at heq
      subst heq
      refine ⟨inv.sound, ?_, inv.erasedBB, inv.colLo, inv.colHi⟩
      intro t ht
      rcases inv.compl t ht with h255 | ⟨q, hq, _⟩
      · exact h255
      · exact absurd hq (List.not_mem_nil q)
    | cons p rest =>
      simp only [dfsLoop] at heq
      have hcols := dfsInv_col_of_stack hs hLR inv (List.mem_cons_self p rest)
      by_cases hbg : r p.1 p.2 > 123
      · rw [if_pos hbg] at heq
        refine ih r rest (extendBB bb p) res ?_ heq
        refine ⟨inv.sound, ?_, ?_, ?_, ?_, ?_⟩
        · intro q hq
          exact inv.stackInv q (List.mem_cons_of_mem p hq)
        · intro t ht
          rcases inv.compl t ht with h255 | ⟨q, hq, hconn⟩
          · exact Or.inl h255
          · rcases List.mem_cons.mp hq with hqp | hqrest
            · subst hqp
              have := (conn_head_ok hconn).2
              omega
            · exact Or.inr ⟨q, hqrest, hconn⟩
        · intro q hq
          exact inBB_extend (inv.erasedBB q hq)
        · have := inv.colLo
          simp only [extendBB]
          exact le_min this hcols.1
        · have := inv.colHi
          simp only [extendBB]
          exact max_le this hcols.2
      · rw [if_neg hbg] at heq
        have hink : r p.1 p.2 ≤ 123 := by omega
        have hinp : inB H W p := (inv.stackInv p (List.mem_cons_self p rest)).1
        have hporig : r p.1 p.2 = r0 p.1 p.2 := by
          by_contra hch
          have := (inv.sound p hch).1
          omega
        have hokp : okPix H W r0 p := ⟨hinp, by omega⟩
        have hconnp : Conn H W r0 s p := by
          rcases (inv.stackInv p (List.mem_cons_self p rest)).2 with hps | ⟨e, hche, hadje⟩
          · subst hps; exact Conn.refl p hs
          · exact conn_snoc (inv.sound e hche).2.2 hadje hokp
        have hchp : erase1 r p p.1 p.2 ≠ r0 p.1 p.2 := by
          rw [erase1_self]
          omega
        refine ih (erase1 r p) (pushN H W p rest) (extendBB bb p) res ?_ heq
        refine ⟨?_, ?_, ?_, ?_, ?_, ?_⟩
        · intro q hq
          by_cases hqp : q = p
          · subst hqp
            rw [erase1_self]
            exact ⟨rfl, hokp, hconnp⟩
          · rw [erase1_ne hqp] at hq ⊢
            exact inv.sound q hq
        · intro q hq
          rcases mem_pushN.mp hq with ⟨hadj, hin⟩ | hqrest
          · exact ⟨hin, Or.inr ⟨p, hchp, hadj⟩⟩
          · have hold := inv.stackInv q (List.mem_cons_of_mem p hqrest)
            refine ⟨hold.1, ?_⟩
            rcases hold.2 with hqs | ⟨e, hche, hadje⟩
            · exact Or.inl hqs
            · right
              refine ⟨e, ?_, hadje⟩
              by_cases hep : e = p
              · subst hep; exact hchp
              · rw [erase1_ne hep]; exact hche
        · intro t ht
          rcases inv.compl t ht with h255 | ⟨q, hq, hconn⟩
          · left
            by_cases htp : t = p
            · subst htp; exact erase1_self r t
            · rw [erase1_ne htp]; exact h255
          · rcases conn_erase p hconn with hleft | hmid | ⟨q', hadjq', hconnq'⟩
            · right
              refine ⟨q, ?_, hleft⟩
              rcases List.mem_cons.mp hq with hqp | hqrest
              · subst hqp
                have := (conn_head_ok hleft).2
                rw [erase1_self] at this
                omega
              · exact mem_pushN.mpr (Or.inr hqrest)
            · subst hmid
              left
              exact erase1_self r t
            · right
              have hinq' := (conn_head_ok hconnq').1
              exact ⟨q', mem_pushN.mpr (Or.inl ⟨hadjq', hinq'⟩), hconnq'⟩
        · intro q hq
          by_cases hqp : q = p
          · subst hqp
            exact inBB_extend_self bb q
          · rw [erase1_ne hqp] at hq
            exact inBB_extend (inv.erasedBB q hq)
        · have := inv.colLo
          simp only [extendBB]
          exact le_min this hcols.1
        · have := inv.colHi
          simp only [extendBB]
          exact max_le this hcols.2

lemma dfs_spec {H W : Nat} {r : Raster} {a b L R : Int}
    (hok : okPix H W r (a, b))
    (hLR : ∀ t : Int × Int, Conn H W r (a, b) t → L ≤ t.2 ∧ t.2 ≤ R) :
    ∃ r' bb, dfs H W r a b = some (r', bb) ∧
      (∀ q : Int × Int, r' q.1 q.2 ≠ r q.1 q.2 →
        r' q.1 q.2 = 255 ∧ okPix H W r q ∧ Conn H W r (a, b) q) ∧
      (∀ t : Int × Int, Conn H W r (a, b) t → r' t.1 t.2 = 255) ∧
      (∀ q : Int × Int, r' q.1 q.2 ≠ r q.1 q.2 → inBB bb q) ∧
      L - 1 ≤ bb.ymin ∧ bb.ymax ≤ R + 1 := by
  have htot : ∃ res, dfsLoop H W (9 * inkCount H W r + 2) r [(a, b)] ⟨a, a, b, b⟩ = some res := by
    apply dfsLoop_total
    · intro q hq
      rcases List.mem_singleton.mp hq with rfl
      exact hok.1
    · simp
  obtain ⟨res, hres⟩ := htot
  have hinv : DfsInv H W r (a, b) L R r [(a, b)] ⟨a, a, b, b⟩ := by
    have hsb := hLR (a, b) (Conn.refl (a, b) hok)
    refine ⟨?_, ?_, ?_, ?_, ?_, ?_⟩
    · intro q hq; exact absurd rfl hq
    · intro q hq
      rcases List.mem_singleton.mp hq with rfl
      exact ⟨hok.1, Or.inl rfl⟩
    · intro t ht
      exact Or.inr ⟨(a, b), List.mem_singleton_self (a, b), ht⟩
    · intro q hq; exact absurd rfl hq
    · simpa using by omega
    · simpa using by omega
  have hmain := dfsLoop_inv hok hLR (9 * inkCount H W r + 2) r [(a, b)] ⟨a, a, b, b⟩ res hinv hres
  exact ⟨res.1, res.2, hres, hmain.1, hmain.2.1, hmain.2.2.1, hmain.2.2.2.1, hmain.2.2.2.2⟩

/-- A 1 by 5 test raster whose ink component is the whole single row. -/
def rasterRow5 : Raster := fun a b => if a = 0 ∧ 0 ≤ b ∧ b < 5 then 0 else 255

/-- A 2 by 2 test raster with ink at (0,0) and (0,1). -/
def rasterTwo : Raster := fun a b => if a = 0 ∧ (b = 0 ∨ b = 1) then 0 else 255

/-- A 1 by 1 test raster with a single ink pixel. -/
def rasterOne : Raster := fun a b => if a = 0 ∧ b = 0 then 0 else 255

/-- C4: after `dfs` returns for an in-bounds ink start pixel, every pixel of
that pixel's 8-connected ink component in the source raster has been
overwritten to the background value 255, so a second extraction pass finds no
further ink (value `≤ 123`) pixel in the component. -/
theorem dfs_erases_component (H W : Nat) (r : Raster) (a b : Int)
    (hok : okPix H W r (a, b)) :
    (∃ res, dfs H W r a b = some res) ∧
    ∀ r' bb, dfs H W r a b = some (r', bb) →
      ∀ p : Int × Int, Conn H W r (a, b) p →
        r' p.1 p.2 = 255 ∧ ¬ (r' p.1 p.2 ≤ 123) := by
  have hLR : ∀ t : Int × Int, Conn H W r (a, b) t → (0:Int) ≤ t.2 ∧ t.2 ≤ (W:Int) - 1 := by
    intro t ht
    obtain ⟨h1, h2, h3, h4⟩ := (conn_target_ok ht).1
    exact ⟨h3, by omega⟩
  obtain ⟨r', bb, heq, _, hcompl, _, _⟩ := dfs_spec hok hLR
  refine ⟨⟨(r', bb), heq⟩, ?_⟩
  intro r'' bb'' heq' p hp
  rw [heq] at heq'
  have hpair : (r', bb) = (r'', bb'') := Option.some.inj heq'
  have h1 : r' = r'' := congrArg Prod.fst hpair
  subst h1
  have h255 := hcompl p hp
  refine ⟨h255, ?_⟩
  rw [h255]
  decide

/-- Witness for C4 at a concrete 2 by 2 raster with a two-pixel component. -/
theorem dfs_erases_component_witness :
    okPix 2 2 rasterTwo (0, 0) ∧
    ((∃ res, dfs 2 2 rasterTwo 0 0 = some res) ∧
      ∀ r' bb, dfs 2 2 rasterTwo 0 0 = some (r', bb) →
        ∀ p : Int × Int, Conn 2 2 rasterTwo (0, 0) p →
          r' p.1 p.2 = 255 ∧ ¬ (r' p.1 p.2 ≤ 123)) :=
  ⟨by decide, dfs_erases_component 2 2 rasterTwo 0 0 (by decide)⟩

/-- C5: the flood-fill loop terminates on every finite raster: whenever the
fuel exceeds the measure `9 * inkCount + stack length`, `dfsLoop` returns a
result, because every pop either discards a background coordinate (stack
shrinks) or permanently erases one ink pixel while pushing at most nine
entries. -/
theorem dfs_flood_fill_terminates (H W fuel : Nat) (r : Raster)
    (st : List (Int × Int)) (bb : BB)
    (hst : ∀ q ∈ st, inB H W q)
    (hfuel : 9 * inkCount H W r + st.length < fuel) :
    ∃ res, dfsLoop H W fuel r st bb = some res :=
  dfsLoop_total fuel r st bb hst hfuel

/-- Witness for C5 at a concrete raster, start stack and fuel. -/
theorem dfs_flood_fill_terminates_witness :
    (∀ q ∈ [((0:Int), (0:Int))], inB 2 2 q) ∧
    9 * inkCount 2 2 rasterTwo + [((0:Int), (0:Int))].length < 20 ∧
    ∃ res, dfsLoop 2 2 20 rasterTwo [(0, 0)] ⟨0, 0, 0, 0⟩ = some res :=
  ⟨by decide, by decide,
    dfs_flood_fill_terminates 2 2 20 rasterTwo [(0, 0)] ⟨0, 0, 0, 0⟩
      (by decide) (by decide)⟩

/-- C10: frame effect of extraction: `dfs` started on an in-bounds ink pixel
modifies exactly the pixels of the 8-connected ink component of the start (each
set to 255, from an ink value `≤ 123`); every other pixel — including the
background neighbors pushed onto the stack — keeps its prior value. -/
theorem dfs_frame_effect (H W : Nat) (r : Raster) (a b : Int)
    (hok : okPix H W r (a, b)) :
    (∃ res, dfs H W r a b = some res) ∧
    ∀ r' bb, dfs H W r a b = some (r', bb) →
      (∀ p : Int × Int, Conn H W r (a, b) p →
        r' p.1 p.2 = 255 ∧ r p.1 p.2 ≤ 123) ∧
      (∀ p : Int × Int, ¬ Conn H W r (a, b) p → r' p.1 p.2 = r p.1 p.2) := by
  have hLR : ∀ t : Int × Int, Conn H W r (a, b) t → (0:Int) ≤ t.2 ∧ t.2 ≤ (W:Int) - 1 := by
    intro t ht
    obtain ⟨h1, h2, h3, h4⟩ := (conn_target_ok ht).1
    exact ⟨h3, by omega⟩
  obtain ⟨r', bb, heq, hsound, hcompl, _, _⟩ := dfs_spec hok hLR
  refine ⟨⟨(r', bb), heq⟩, ?_⟩
  intro r'' bb'' heq'
  rw [heq] at heq'
  have hpair : (r', bb) = (r'', bb'') := Option.some.inj heq'
  have h1 : r' = r'' := congrArg Prod.fst hpair
  subst h1
  constructor
  · intro p hp
    exact ⟨hcompl p hp, (conn_target_ok hp).2⟩
  · intro p hp
    by_contra hne
    exact hp (hsound p hne).2.2

/-- Witness for C10 at a concrete 2 by 2 raster. -/
theorem dfs_frame_effect_witness :
    okPix 2 2 rasterTwo (0, 1) ∧
    ((∃ res, dfs 2 2 rasterTwo 0 1 = some res) ∧
    ∀ r' bb, dfs 2 2 rasterTwo 0 1 = some (r', bb) →
      (∀ p : Int × Int, Conn 2 2 rasterTwo (0, 1) p →
        r' p.1 p.2 = 255 ∧ rasterTwo p.1 p.2 ≤ 123) ∧
      (∀ p : Int × Int, ¬ Conn 2 2 rasterTwo (0, 1) p →
        r' p.1 p.2 = rasterTwo p.1 p.2)) :=
  ⟨by decide, dfs_frame_effect 2 2 rasterTwo 0 1 (by decide)⟩

/-- C8 counterexample: on a 1 by 5 raster whose single ink component occupies
one row (row extent 0, column extent 4), `dfs` returns `ymax - ymin = 4`,
which is the column (horizontal) extent of its bounding box, not the row
extent `xmax - xmin = 0`. -/
theorem dfs_return_counterexample :
    dfsRet 1 5 rasterRow5 0 0 = some 4 ∧
    (dfs 1 5 rasterRow5 0 0).map (fun z => z.2.xmax - z.2.xmin) = some 0 ∧
    (4 : Int) ≠ 0 := by
  refine ⟨by decide, by decide, by decide⟩

/-- C8 amended: `dfs` returns the extent `ymax - ymin` of its running bounding
box along the column (horizontal) axis; this equals the column extent of the
component up to the one-pixel inflation caused by pushed neighbors (the box
covers the component and exceeds its exact column bounds by at most one pixel
on each side). -/
theorem dfs_return_col_extent (H W : Nat) (r : Raster) (a b L R : Int)
    (hok : okPix H W r (a, b))
    (hall : ∀ t : Int × Int, Conn H W r (a, b) t → L ≤ t.2 ∧ t.2 ≤ R)
    (hlo : ∃ t : Int × Int, Conn H W r (a, b) t ∧ t.2 = L)
    (hhi : ∃ t : Int × Int, Conn H W r (a, b) t ∧ t.2 = R) :
    ∃ r' bb, dfs H W r a b = some (r', bb) ∧
      dfsRet H W r a b = some (bb.ymax - bb.ymin) ∧
      R - L ≤ bb.ymax - bb.ymin ∧ bb.ymax - bb.ymin ≤ R - L + 2 := by
  obtain ⟨r', bb, heq, hsound, hcompl, hebb, hcolLo, hcolHi⟩ := dfs_spec hok hall
  have hchain : ∀ t : Int × Int, Conn H W r (a, b) t → inBB bb t := by
    intro t ht
    apply hebb
    have h255 := hcompl t ht
    have hink := (conn_target_ok ht).2
    omega
  obtain ⟨tl, htl, htlL⟩ := hlo
  obtain ⟨th, hth, hthR⟩ := hhi
  have hl := (hchain tl htl).2.2.1
  have hh := (hchain th hth).2.2.2
  refine ⟨r', bb, heq, ?_, ?_, ?_⟩
  · unfold dfsRet
    rw [heq]
    rfl
  · omega
  · omega

/-- Witness for the amended C8 at a concrete 1 by 1 raster. -/
theorem dfs_return_col_extent_witness :
    okPix 1 1 rasterOne (0, 0) ∧
    (∀ t : Int × Int, Conn 1 1 rasterOne (0, 0) t → (0:Int) ≤ t.2 ∧ t.2 ≤ 0) ∧
    (∃ t : Int × Int, Conn 1 1 rasterOne (0, 0) t ∧ t.2 = 0) ∧
    ∃ r' bb, dfs 1 1 rasterOne 0 0 = some (r', bb) ∧
      dfsRet 1 1 rasterOne 0 0 = some (bb.ymax - bb.ymin) ∧
      (0:Int) - 0 ≤ bb.ymax - bb.ymin ∧ bb.ymax - bb.ymin ≤ 0 - 0 + 2 := by
  have hall : ∀ t : Int × Int, Conn 1 1 rasterOne (0, 0) t → (0:Int) ≤ t.2 ∧ t.2 ≤ 0 := by
    intro t ht
    obtain ⟨h1, h2, h3, h4⟩ := (conn_target_ok ht).1
    exact ⟨h3, by omega⟩
  have hlo : ∃ t : Int × Int, Conn 1 1 rasterOne (0, 0) t ∧ t.2 = 0 :=
    ⟨(0, 0), Conn.refl (0, 0) (by decide), rfl⟩
  exact ⟨by decide, hall, hlo,
    dfs_return_col_extent 1 1 rasterOne 0 0 0 0 (by decide) hall hlo hlo⟩

/-- One step of the layout analyzer, from the per-glyph block of
`img_segment`: given the accumulated crop box of the glyph and the state
`(prevCenter, prevBottom)`, compute `currCenter = (yminCrop + ymaxCrop)/2`,
emit `1` if `ymaxCrop < prevCenter`, else `-1` if `currCenter > prevBottom`,
else `0`, and return the updated state `(currCenter, ymaxCrop)`.  Note the
source applies the rule to the `ymin`/`ymax` fields, which track the second
(column, horizontal) raster axis. -/
def classifyStep (bb : BB) (prevCenter prevBottom : ℚ) : Int × ℚ × ℚ :=
  let currCenter : ℚ := ((bb.ymin : ℚ) + (bb.ymax : ℚ)) / 2
  let role : Int :=
    if (bb.ymax : ℚ) < prevCenter then 1
    else if currCenter > prevBottom then -1
    else 0
  (role, currCenter, (bb.ymax : ℚ))

/-- Run the layout analyzer over a list of glyph boxes from a given state. -/
def runClassifyAux : List BB → ℚ → ℚ → List Int
  | [], _, _ => []
  | bb :: rest, pc, pb =>
    let s := classifyStep bb pc pb
    s.1 :: runClassifyAux rest s.2.1 s.2.2

/-- Roles assigned to successive glyph boxes with the source's initial state
`prevCenter = prevBottom = 0`. -/
def runClassify (bbs : List BB) : List Int := runClassifyAux bbs 0 0

/-- Modelled from the spec (section 4.3): the same classification rule applied
to ROW (vertical) coordinates: `center = (row_min + row_max)/2`, role `1`
(SUPERSCRIPT_START) when `row_max < prev_center`, `-1` when
`center > prev_bottom`, else `0`.  Rows are the `xmin`/`xmax` fields. -/
def classifyStepRow (bb : BB) (prevCenter prevBottom : ℚ) : Int × ℚ × ℚ :=
  let currCenter : ℚ := ((bb.xmin : ℚ) + (bb.xmax : ℚ)) / 2
  let role : Int :=
    if (bb.xmax : ℚ) < prevCenter then 1
    else if currCenter > prevBottom then -1
    else 0
  (role, currCenter, (bb.xmax : ℚ))

/-- Row-axis analyzer run, following the spec's words. -/
def runClassifyRowAux : List BB → ℚ → ℚ → List Int
  | [], _, _ => []
  | bb :: rest, pc, pb =>
    let s := classifyStepRow bb pc pb
    s.1 :: runClassifyRowAux rest s.2.1 s.2.2

/-- Row-axis analyzer from the initial zero state. -/
def runClassifyRow (bbs : List BB) : List Int := runClassifyRowAux bbs 0 0

/-- C1 (code bug): the source's layout analyzer compares COLUMN coordinates,
not row coordinates.  First pair: box rows 0-10/cols 10-20 followed by a box
rows 20-30/cols 0-4 that lies strictly below it; the claimed (row-axis) rule
never emits SUPERSCRIPT_START on such a descending sequence, yet the code
emits `1`.  Second pair: box rows 0-10/cols 0-10 followed by a genuine
superscript at rows 0-2/cols 20-22 (entirely above the previous vertical
center); the claimed rule emits `1`, yet the code emits `-1`. -/
theorem classify_role_axis_code_bug :
    runClassify [⟨0, 10, 10, 20⟩, ⟨20, 30, 0, 4⟩] = [-1, 1] ∧
    runClassifyRow [⟨0, 10, 10, 20⟩, ⟨20, 30, 0, 4⟩] = [-1, -1] ∧
    runClassify [⟨0, 10, 0, 10⟩, ⟨0, 2, 20, 22⟩] = [-1, -1] ∧
    runClassifyRow [⟨0, 10, 0, 10⟩, ⟨0, 2, 20, 22⟩] = [-1, 1] := by
  refine ⟨?_, ?_, ?_, ?_⟩ <;>
    norm_num [runClassify, runClassifyAux, runClassifyRow, runClassifyRowAux,
      classifyStep, classifyStepRow]

/-- Crop accumulator state (`xminCrop`, `yminCrop`, `xmaxCrop`, `ymaxCrop`),
with the source's initial magic values 100000/0. -/
structure CropSt where
  cxmin : Int
  cymin : Int
  cxmax : Int
  cymax : Int
deriving Repr, DecidableEq

/-- Initial crop accumulators: `xminCrop, yminCrop = 100000, 100000` and
`xmaxCrop, ymaxCrop = 0, 0`. -/
def cropInit : CropSt := ⟨100000, 100000, 0, 0⟩

/-- The inner `while i < shape[0]` scan loop of `img_segment` over one column
(with the mid-loop column jump):  an ink pixel (`<= 123`) triggers `dfs`,
merges the returned bounding box into the crop accumulators, sets the write
flag, and if `max_jump = int(yjump*0.5)` is nonzero jumps the column and
restarts the row index.  Reading a column index at or beyond the raster width
is an index error (`none`). -/
def scanInner (H W : Nat) : Nat → Raster → Int → Int → Bool → CropSt →
    Option (Raster × Int × Bool × CropSt)
  | 0, _, _, _, _, _ => none
  | fuel+1, r, j, i, wf, crop =>
    if i < (H : Int) then
      if 0 ≤ j ∧ j < (W : Int) then
        if r i j ≤ 123 then
          match dfs H W r i j with
          | none => none
          | some (r', bb) =>
            let crop' : CropSt :=
              ⟨min crop.cxmin bb.xmin, min crop.cymin bb.ymin,
               max crop.cxmax bb.xmax, max crop.cymax bb.ymax⟩
            let yjump := bb.ymax - bb.ymin
            let mj := yjump / 2
            if mj ≠ 0 then scanInner H W fuel r' (j + mj) 0 true crop'
            else scanInner H W fuel r' j (i + 1) true crop'
        else scanInner H W fuel r j (i + 1) wf crop
      else none
    else some (r, j, wf, crop)

/-- The outer `while j < shape[1]` loop of `img_segment`: run one column scan,
then — when the write flag was raised — finalize the glyph: record its crop
box, classify its layout role from `(prevCenter, prevBottom)` via the
`isPowerStart` block, update that state and reset the accumulators. -/
def scanOuter (H W : Nat) : Nat → Raster → Int → ℚ → ℚ → List (BB × Int) →
    Option (List (BB × Int))
  | 0, _, _, _, _, _ => none
  | fuel+1, r, j, pc, pb, acc =>
    if j < (W : Int) then
      match scanInner H W ((inkCount H W r + 2) * (H + W + 2)) r j 0 false cropInit with
      | none => none
      | some (r', j', wf, crop) =>
        if wf then
          let cb : BB := ⟨crop.cxmin, crop.cxmax, crop.cymin, crop.cymax⟩
          let s := classifyStep cb pc pb
          scanOuter H W fuel r' (j' + 1) s.2.1 s.2.2 (acc ++ [(cb, s.1)])
        else scanOuter H W fuel r' (j' + 1) pc pb acc
    else some acc

/-- The glyph-extraction scan of `img_segment`: left-to-right over columns from
the zero layout state, yielding the list of glyph crop boxes with their
`isPowerStart` roles. -/
def img_segment_scan (H W : Nat) (r : Raster) : Option (List (BB × Int)) :=
  scanOuter H W (W + 2) r 0 0 0 []

lemma scanInner_noink {H W : Nat} {r : Raster}
    (hno : ∀ a b : Int, 0 ≤ a → a < (H : Int) → 0 ≤ b → b < (W : Int) →
      ¬ (r a b ≤ 123)) :
    ∀ (fuel : Nat) (i j : Int) (wf : Bool) (crop : CropSt),
      0 ≤ i → 0 ≤ j → j < (W : Int) → ((H : Int) - i).toNat < fuel →
      scanInner H W fuel r j i wf crop = some (r, j, wf, crop) := by
  intro fuel
  induction fuel with
  | zero => intro i j wf crop _ _ _ hf; omega
  | succ n ih =>
    intro i j wf crop hi hj hjW hf
    rw [scanInner]
    by_cases hiH : i < (H : Int)
    · rw [if_pos hiH, if_pos ⟨hj, hjW⟩, if_neg (hno i j hi hiH hj hjW)]
      apply ih (i + 1) j wf crop (by omega) hj hjW (by omega)
    · rw [if_neg hiH]

lemma scanOuter_noink {H W : Nat} {r : Raster}
    (hno : ∀ a b : Int, 0 ≤ a → a < (H : Int) → 0 ≤ b → b < (W : Int) →
      ¬ (r a b ≤ 123)) :
    ∀ (fuel : Nat) (j : Int) (pc pb : ℚ) (acc : List (BB × Int)),
      0 ≤ j → ((W : Int) - j).toNat < fuel →
      scanOuter H W fuel r j pc pb acc = some acc := by
  intro fuel
  induction fuel with
  | zero => intro j pc pb acc _ hf; omega
  | succ n ih =>
    intro j pc pb acc hj hf
    rw [scanOuter]
    by_cases hjW : j < (W : Int)
    · rw [if_pos hjW]
      have hfi : ((H : Int) - 0).toNat < (inkCount H W r + 2) * (H + W + 2) := by
        have h1 : H + W + 2 ≤ (inkCount H W r + 2) * (H + W + 2) :=
          Nat.le_mul_of_pos_left _ (by omega)
        omega
      rw [scanInner_noink hno _ 0 j false cropInit le_rfl hj hjW hfi]
      show scanOuter H W n r (j + 1) pc pb acc = some acc
      exact ih (j + 1) pc pb acc (by omega) (by omega)
    · rw [if_neg hjW]

/-- Lexicographic order on character lists, as python compares strings. -/
def listLe : List Char → List Char → Bool
  | [], _ => true
  | _ :: _, [] => false
  | a :: as, b :: bs =>
    if a < b then true
    else if b < a then false
    else listLe as bs

/-- The digit test of the reconstruction loop:
`val >= '0' and val <= '9'` on python strings. -/
def isDigitLbl (v : String) : Bool :=
  listLe ['0'] v.data && listLe v.data ['9']

/-- The inner multi-digit run of the loop:
`while i < len(predicted_list) and (val >= '0' and val <= '9')`, whose body
appends `val`, increments `i` and re-reads `predicted_list[i]` without a
bound check (an out-of-range read is `none`). -/
def innerDigits (pl : List String) : Nat → Nat → String → List Char →
    Option (List Char × Nat × String)
  | 0, _, _, _ => none
  | fuel+1, i, val, eq =>
    if i < pl.length ∧ isDigitLbl val then
      match pl.get? (i + 1) with
      | none => none
      | some v' => innerDigits pl fuel (i + 1) v' (eq ++ val.data)
    else some (eq, i, val)

/-- The exponent-run loop
`while(isPowerStart2[i] == 0 and predicted_list[i] >= '0' and ... <= '9')`;
both indexings are unguarded (`none` on out-of-range). -/
def expRun (pl : List String) (ips : List Int) : Nat → Nat → List Char →
    Option (List Char × Nat)
  | 0, _, _ => none
  | fuel+1, i, eq =>
    match ips.get? i with
    | none => none
    | some rho =>
      if rho = 0 then
        match pl.get? i with
        | none => none
        | some v =>
          if isDigitLbl v then expRun pl ips fuel (i + 1) (eq ++ v.data)
          else some (eq, i)
      else some (eq, i)

/-- The strip-trailing-star repair of the structural branch:
`if final_eq[-1] == '*': final_eq = final_eq[:-1]`, where indexing an empty
`final_eq` is an error. -/
def structStrip (eq : List Char) : Option (List Char) :=
  match eq.getLast? with
  | none => none
  | some c0 => some (if c0 = '*' then eq.dropLast else eq)

/-- The implicit-multiplication insertion before `'('`:
`if val == '(' and len(final_eq) != 1 and not(final_eq[-1] == '(' or
final_eq[-1] == '+' or final_eq[-1] == '-'): final_eq += '*'`. -/
def structParen (val : String) (eqA : List Char) : Option (List Char) :=
  if val = "(" then
    if eqA.length ≠ 1 then
      match eqA.getLast? with
      | none => none
      | some c1 =>
        if ¬ (c1 = '(' ∨ c1 = '+' ∨ c1 = '-') then some (eqA ++ ['*'])
        else some eqA
    else some eqA
  else some eqA

/-- The implicit-multiplication insertion after `')'`, with the guarded
lookahead `not(i == len(predicted_list)-1 or predicted_list[i+1] == ...)`. -/
def structClose (pl : List String) (val : String) (i : Nat) (eqC : List Char) :
    Option (List Char) :=
  if val = ")" then
    if i = pl.length - 1 then some eqC
    else
      match pl.get? (i + 1) with
      | none => none
      | some nx =>
        if nx = ")" ∨ nx = "+" ∨ nx = "-" then some eqC
        else if isDigitLbl nx then some (eqC ++ ['*', '*'])
        else some (eqC ++ ['*'])
  else some eqC

/-- One `while i < len(predicted_list)` pass of the reconstruction loop of
`img_segment`, building `final_eq` as a character list.  Every unguarded list
indexing of the source is modelled by `get?` with `none` for an index error;
`final_eq[-1]` on an empty string is likewise `none`. -/
def reconLoop (pl : List String) (ips : List Int) : Nat → Nat → List Char →
    Option String
  | 0, _, _ => none
  | fuel+1, i, eq =>
    if i < pl.length then
      match pl.get? i with
      | none => none
      | some val =>
        if isDigitLbl val then
          match pl.get? (i + 1) with
          | none => none
          | some v1 =>
            match innerDigits pl (pl.length + 1) (i + 1) v1 (eq ++ val.data) with
            | none => none
            | some (eq2, i2, _) =>
              reconLoop pl ips fuel ((i2 - 1) + 1) (eq2 ++ ['*'])
        else if val = "(" ∨ val = ")" ∨ val = "+" ∨ val = "-" then
          match structStrip eq with
          | none => none
          | some eqA =>
            match structParen val eqA with
            | none => none
            | some eqB =>
              match structClose pl val i (eqB ++ val.data) with
              | none => none
              | some eqD => reconLoop pl ips fuel (i + 1) eqD
        else if val = "pi" ∨ val = "e" ∨ val = "i" then
          let piece : String := if val = "e" then "E" else if val = "i" then "I" else val
          reconLoop pl ips fuel (i + 1) (eq ++ piece.data ++ ['*'])
        else
          match ips.get? (i + 1) with
          | none => none
          | some rho =>
            if rho = 1 then
              match pl.get? (i + 1) with
              | none => none
              | some nxt =>
                match expRun pl ips (pl.length + 1) (i + 2)
                    (eq ++ ['('] ++ val.data ++ ['*', '*'] ++ nxt.data) with
                | none => none
                | some (eq3, i3) =>
                  reconLoop pl ips fuel ((i3 - 1) + 1) (eq3 ++ [')', '*'])
            else reconLoop pl ips fuel (i + 1) (eq ++ ['('] ++ val.data ++ [')', '*'])
    else some (String.mk eq)

/-- The `=`-splitting pass that builds `predicted_list`/`isPowerStart2` from
the classified tokens: `'='` becomes the three tokens `')'`, `'-'`, `'('` (all
role 0); any other label is kept with its layout role. -/
def expandTok : List (String × Int) → List (String × Int)
  | [] => []
  | (l, rho) :: rest =>
    if l = "=" then (")", 0) :: ("-", 0) :: ("(", 0) :: expandTok rest
    else (l, rho) :: expandTok rest

/-- The reconstruction pass of `img_segment` on a classified token stream:
wrap with an initial `'('`/role `0` and a final `')'`/role `0`, expand `'='`
tokens, then run the `final_eq` loop from `i = 1` with `final_eq = "("`. -/
def reconstruct (ts : List (String × Int)) : Option String :=
  let pl := "(" :: (expandTok ts).map Prod.fst ++ [")"]
  let ips := (0 : Int) :: (expandTok ts).map Prod.snd ++ [0]
  reconLoop pl ips (pl.length + 1) 1 ['(']

/-- Parenthesis balance check for an expression string. -/
def parenBalanced (s : String) : Bool :=
  go s.data 0
where
  go : List Char → Int → Bool
    | [], d => d = 0
    | c :: rest, d =>
      if c = '(' then go rest (d + 1)
      else if c = ')' then (0 < d) && go rest (d - 1)
      else go rest d

lemma get?_some_of_lt {α : Type} {l : List α} {i : Nat} (h : i < l.length) :
    ∃ x, l.get? i = some x := by
  cases hx : l.get? i with
  | none => exact absurd (List.get?_eq_none.mp hx) (by omega)
  | some x => exact ⟨x, rfl⟩

lemma ne_last_of_ne {pl : List String} {i : Nat} {val : String}
    (hlast : pl.get? (pl.length - 1) = some ")")
    (hval : pl.get? i = some val) (hne : val ≠ ")") : i + 1 < pl.length := by
  have hi : i < pl.length := by
    by_contra hc
    rw [List.get?_eq_none.mpr (by omega)] at hval
    exact Option.noConfusion hval
  by_cases hieq : i = pl.length - 1
  · rw [hieq, hlast] at hval
    exact absurd (Option.some.inj hval).symm hne
  · omega

lemma innerDigits_some (pl : List String)
    (hlast : pl.get? (pl.length - 1) = some ")") :
    ∀ (fuel i : Nat) (val : String) (eq : List Char),
      pl.get? i = some val → pl.length - i < fuel →
      ∃ eq' i' v', innerDigits pl fuel i val eq = some (eq', i', v') ∧
        i ≤ i' ∧ pl.get? i' = some v' ∧ ∃ t, eq' = eq ++ t := by
  intro fuel
  induction fuel with
  | zero =>
    intro i val eq hval hf
    have : i < pl.length := by
      by_contra hc
      rw [List.get?_eq_none.mpr (by omega)] at hval
      exact Option.noConfusion hval
    omega
  | succ n ih =>
    intro i val eq hval hf
    rw [innerDigits]
    by_cases hc : i < pl.length ∧ isDigitLbl val = true
    · rw [if_pos hc]
      have hvne : val ≠ ")" := by
        intro hv
        rw [hv] at hc
        exact absurd hc.2 (by decide)
      have hi1 : i + 1 < pl.length := ne_last_of_ne hlast hval hvne
      obtain ⟨v', hv'⟩ := get?_some_of_lt hi1
      rw [hv']
      have hfx : pl.length - (i + 1) < n := by omega
      obtain ⟨eq', i', v'', hrec, hle, hget, t, ht⟩ :=
        ih (i + 1) v' (eq ++ val.data) hv' hfx
      exact ⟨eq', i', v'', hrec, by omega, hget,
        val.data ++ t, by rw [ht, List.append_assoc]⟩
    · rw [if_neg hc]
      exact ⟨eq, i, val, rfl, le_rfl, hval, [], by simp⟩

lemma expRun_some (pl : List String) (ips : List Int)
    (hlast : pl.get? (pl.length - 1) = some ")")
    (hiplen : ips.length = pl.length) :
    ∀ (fuel i : Nat) (eq : List Char),
      i < pl.length → pl.length - i < fuel →
      ∃ eq' i', expRun pl ips fuel i eq = some (eq', i') ∧
        i ≤ i' ∧ i' < pl.length ∧ ∃ t, eq' = eq ++ t := by
  intro fuel
  induction fuel with
  | zero => intro i eq hi hf; omega
  | succ n ih =>
    intro i eq hi hf
    rw [expRun]
    obtain ⟨rho, hrho⟩ := get?_some_of_lt (l := ips) (i := i) (by omega)
    simp only [hrho]
    by_cases hz : rho = 0
    · rw [if_pos hz]
      obtain ⟨v, hv⟩ := get?_some_of_lt (l := pl) hi
      simp only [hv]
      by_cases hd : isDigitLbl v = true
      · rw [if_pos hd]
        have hvne : v ≠ ")" := by
          intro hveq
          rw [hveq] at hd
          exact absurd hd (by decide)
        have hi1 : i + 1 < pl.length := ne_last_of_ne hlast hv hvne
        have hfx : pl.length - (i + 1) < n := by omega
        obtain ⟨eq', i', hrec, hle, hlt, t, ht⟩ :=
          ih (i + 1) (eq ++ v.data) hi1 hfx
        exact ⟨eq', i', hrec, by omega, hlt, v.data ++ t, by rw [ht, List.append_assoc]⟩
      · rw [if_neg hd]
        exact ⟨eq, i, rfl, le_rfl, hi, [], by simp⟩
    · rw [if_neg hz]
      exact ⟨eq, i, rfl, le_rfl, hi, [], by simp⟩

lemma exists_getLast? {l : List Char} (h : l ≠ []) : ∃ c, l.getLast? = some c := by
  cases hl : l.getLast? with
  | none => exact absurd (List.getLast?_eq_none_iff.mp hl) h
  | some c => exact ⟨c, rfl⟩

lemma lt_of_get?_some {α : Type} {l : List α} {i : Nat} {x : α}
    (h : l.get? i = some x) : i < l.length := by
  by_contra hc
  rw [List.get?_eq_none.mpr (by omega)] at h
  exact Option.noConfusion h

lemma structStrip_form (rest0 : List Char) :
    ∃ restA, structStrip ('(' :: rest0) = some ('(' :: restA) := by
  obtain ⟨c0, hc0⟩ := exists_getLast? (List.cons_ne_nil '(' rest0)
  unfold structStrip
  simp only [hc0]
  by_cases hc : c0 = '*'
  · rw [if_pos hc]
    cases rest0 with
    | nil =>
      rw [List.getLast?_singleton] at hc0
      rw [hc] at hc0
      exact absurd (Option.some.inj hc0) (by decide)
    | cons x xs =>
      exact ⟨(x :: xs).dropLast, by rw [List.dropLast_cons₂]⟩
  · rw [if_neg hc]
    exact ⟨rest0, rfl⟩

lemma structParen_form (val : String) (restA : List Char) :
    ∃ restB, structParen val ('(' :: restA) = some ('(' :: restB) := by
  unfold structParen
  by_cases h1 : val = "("
  · rw [if_pos h1]
    by_cases h2 : ('(' :: restA).length ≠ 1
    · rw [if_pos h2]
      obtain ⟨c1, hc1⟩ := exists_getLast? (List.cons_ne_nil '(' restA)
      simp only [hc1]
      by_cases h3 : ¬ (c1 = '(' ∨ c1 = '+' ∨ c1 = '-')
      · rw [if_pos h3]
        exact ⟨restA ++ ['*'], by rw [List.cons_append]⟩
      · rw [if_neg h3]
        exact ⟨restA, rfl⟩
    · rw [if_neg h2]
      exact ⟨restA, rfl⟩
  · rw [if_neg h1]
    exact ⟨restA, rfl⟩

lemma structClose_form (pl : List String)
    (val : String) (i : Nat) (hi : i < pl.length) (restC : List Char) :
    ∃ restD, structClose pl val i ('(' :: restC) = some ('(' :: restD) := by
  unfold structClose
  by_cases h1 : val = ")"
  · rw [if_pos h1]
    by_cases h2 : i = pl.length - 1
    · rw [if_pos h2]
      exact ⟨restC, rfl⟩
    · rw [if_neg h2]
      obtain ⟨nx, hnx⟩ := get?_some_of_lt (l := pl) (i := i + 1) (by omega)
      simp only [hnx]
      by_cases h3 : nx = ")" ∨ nx = "+" ∨ nx = "-"
      · rw [if_pos h3]
        exact ⟨restC, rfl⟩
      · rw [if_neg h3]
        by_cases h4 : isDigitLbl nx = true
        · rw [if_pos h4]
          exact ⟨restC ++ ['*', '*'], by rw [List.cons_append]⟩
        · rw [if_neg h4]
          exact ⟨restC ++ ['*'], by rw [List.cons_append]⟩
  · rw [if_neg h1]
    exact ⟨restC, rfl⟩

lemma reconLoop_some (pl : List String) (ips : List Int)
    (hlast : pl.get? (pl.length - 1) = some ")")
    (hiplen : ips.length = pl.length)
    (hiplast : ips.get? (pl.length - 1) = some 0) :
    ∀ (fuel i : Nat) (eq rest0 : List Char), eq = '(' :: rest0 →
      1 ≤ i → pl.length - i < fuel →
      ∃ s, reconLoop pl ips fuel i eq = some s := by
  intro fuel
  induction fuel with
  | zero => intro i eq rest0 heqf h1 hf; omega
  | succ n ih =>
    intro i eq rest0 heqf h1 hf
    rw [reconLoop]
    by_cases hi : i < pl.length
    · rw [if_pos hi]
      obtain ⟨val, hval⟩ := get?_some_of_lt hi
      simp only [hval]
      by_cases hd : isDigitLbl val = true
      · rw [if_pos hd]
        have hvne : val ≠ ")" := by
          intro hv
          rw [hv] at hd
          exact absurd hd (by decide)
        have hi1 : i + 1 < pl.length := ne_last_of_ne hlast hval hvne
        obtain ⟨v1, hv1⟩ := get?_some_of_lt hi1
        simp only [hv1]
        have hfx : pl.length - (i + 1) < pl.length + 1 := by omega
        obtain ⟨eq2, i2, v2, hrec, hle, hget2, t, ht⟩ :=
          innerDigits_some pl hlast (pl.length + 1) (i + 1) v1 (eq ++ val.data) hv1 hfx
        simp only [hrec]
        have hi2lt : i2 < pl.length := lt_of_get?_some hget2
        refine ih ((i2 - 1) + 1) (eq2 ++ ['*'])
          (rest0 ++ (val.data ++ (t ++ ['*']))) ?_ (by omega) (by omega)
        rw [ht, heqf]
        simp
      · rw [if_neg hd]
        by_cases hstr : val = "(" ∨ val = ")" ∨ val = "+" ∨ val = "-"
        · rw [if_pos hstr]
          obtain ⟨restA, hA⟩ := structStrip_form rest0
          rw [heqf]
          simp only [hA]
          obtain ⟨restB, hB⟩ := structParen_form val restA
          simp only [hB]
          obtain ⟨restD, hD⟩ := structClose_form pl val i hi (restB ++ val.data)
          rw [List.cons_append]
          simp only [hD]
          exact ih (i + 1) ('(' :: restD) restD rfl (by omega) (by omega)
        · rw [if_neg hstr]
          by_cases hcst : val = "pi" ∨ val = "e" ∨ val = "i"
          · rw [if_pos hcst]
            refine ih (i + 1)
              (eq ++ (if val = "e" then "E" else if val = "i" then "I" else val).data ++ ['*'])
              (rest0 ++ (if val = "e" then "E" else if val = "i" then "I" else val).data ++ ['*'])
              ?_ (by omega) (by omega)
            rw [heqf]
            simp
          · rw [if_neg hcst]
            have hvne : val ≠ ")" := by
              intro hv
              exact hstr (Or.inr (Or.inl hv))
            have hi1 : i + 1 < pl.length := ne_last_of_ne hlast hval hvne
            obtain ⟨rho, hrho⟩ := get?_some_of_lt (l := ips) (i := i + 1) (by omega)
            simp only [hrho]
            by_cases hone : rho = 1
            · rw [if_pos hone]
              obtain ⟨nxt, hnxt⟩ := get?_some_of_lt hi1
              simp only [hnxt]
              have hne1 : i + 1 ≠ pl.length - 1 := by
                intro hc
                rw [hc, hiplast] at hrho
                have h0 := Option.some.inj hrho
                omega
              have hi2 : i + 2 < pl.length := by omega
              have hfx2 : pl.length - (i + 2) < pl.length + 1 := by omega
              obtain ⟨eq3, i3, hrec3, hle3, hlt3, t3, ht3⟩ :=
                expRun_some pl ips hlast hiplen (pl.length + 1) (i + 2)
                  (eq ++ ['('] ++ val.data ++ ['*', '*'] ++ nxt.data) hi2 hfx2
              simp only [hrec3]
              refine ih ((i3 - 1) + 1) (eq3 ++ [')', '*'])
                (rest0 ++ ['('] ++ val.data ++ ['*', '*'] ++ nxt.data ++ t3 ++ [')', '*'])
                ?_ (by omega) (by omega)
              rw [ht3, heqf]
              simp
            · rw [if_neg hone]
              refine ih (i + 1) (eq ++ ['('] ++ val.data ++ [')', '*'])
                (rest0 ++ ['('] ++ val.data ++ [')', '*']) ?_ (by omega) (by omega)
              rw [heqf]
              simp
    · rw [if_neg hi]
      exact ⟨String.mk eq, rfl⟩

lemma get?_concat_len {α : Type} (l : List α) (a : α) :
    (l ++ [a]).get? l.length = some a := by
  induction l with
  | nil => rfl
  | cons x xs ih => simp [ih]

/-- Abstract syntax of the arithmetic expressions produced by the
reconstructor, used to state algebraic equivalence of output strings. -/
inductive AExp where
  | num : Int → AExp
  | var : AExp
  | add : AExp → AExp → AExp
  | sub : AExp → AExp → AExp
  | mul : AExp → AExp → AExp
deriving Repr, DecidableEq

/-- Evaluation of an expression at an integer value of the variable `x`. -/
def evalA : AExp → Int → Int
  | .num n, _ => n
  | .var, v => v
  | .add a b, v => evalA a v + evalA b v
  | .sub a b, v => evalA a v - evalA b v
  | .mul a b, v => evalA a v * evalA b v

/-- Numeric value of a digit string. -/
def digitsVal (ds : List Char) : Int :=
  ds.foldl (fun acc c => acc * 10 + ((c.toNat - 48 : Nat) : Int)) 0

mutual

/-- Parse a factor: a digit run, the variable `x`, or a parenthesized
expression. -/
def pFactor : Nat → List Char → Option (AExp × List Char)
  | 0, _ => none
  | fuel+1, cs =>
    match cs with
    | 'x' :: rest => some (.var, rest)
    | '(' :: rest =>
      match pExpr fuel rest with
      | some (e, ')' :: rest') => some (e, rest')
      | _ => none
    | c :: rest =>
      if c.isDigit then
        some (.num (digitsVal ((c :: rest).takeWhile Char.isDigit)),
          (c :: rest).dropWhile Char.isDigit)
      else none
    | [] => none

/-- Parse a run of `* factor` continuations. -/
def pTermLoop : Nat → AExp → List Char → Option (AExp × List Char)
  | 0, _, _ => none
  | fuel+1, acc, cs =>
    match cs with
    | '*' :: rest =>
      match pFactor fuel rest with
      | some (f, rest') => pTermLoop fuel (.mul acc f) rest'
      | none => none
    | _ => some (acc, cs)

/-- Parse a term: a factor followed by `* factor` continuations. -/
def pTerm : Nat → List Char → Option (AExp × List Char)
  | 0, _ => none
  | fuel+1, cs =>
    match pFactor fuel cs with
    | some (f, rest) => pTermLoop fuel f rest
    | none => none

/-- Parse a run of `+ term` / `- term` continuations. -/
def pExprLoop : Nat → AExp → List Char → Option (AExp × List Char)
  | 0, _, _ => none
  | fuel+1, acc, cs =>
    match cs with
    | '+' :: rest =>
      match pTerm fuel rest with
      | some (t, rest') => pExprLoop fuel (.add acc t) rest'
      | none => none
    | '-' :: rest =>
      match pTerm fuel rest with
      | some (t, rest') => pExprLoop fuel (.sub acc t) rest'
      | none => none
    | _ => some (acc, cs)

/-- Parse an expression: a term followed by additive continuations. -/
def pExpr : Nat → List Char → Option (AExp × List Char)
  | 0, _ => none
  | fuel+1, cs =>
    match pTerm fuel cs with
    | some (t, rest) => pExprLoop fuel t rest
    | none => none

end

/-- Parse a complete expression string. -/
def parseE (s : String) : Option AExp :=
  match pExpr (s.length + 10) s.data with
  | some (e, []) => some e
  | _ => none

/-- C2: for every classified token stream, the reconstruction pass succeeds:
every lookahead (multi-digit assembly, exponent-run consumption, and the
closing-parenthesis lookahead) stays within the `predicted_list` bounds, so no
index error (`none`) is ever produced. -/
theorem reconstruct_lookahead_safe (ts : List (String × Int)) :
    (reconstruct ts).isSome = true := by
  have hm : ((expandTok ts).map Prod.snd).length =
      ((expandTok ts).map Prod.fst).length := by simp
  have hidx : (("(" : String) :: ((expandTok ts).map Prod.fst ++ [")"])).length - 1 =
      ((expandTok ts).map Prod.fst).length + 1 := by simp
  have hlast : (("(" : String) :: ((expandTok ts).map Prod.fst ++ [")"])).get?
      ((("(" : String) :: ((expandTok ts).map Prod.fst ++ [")"])).length - 1) =
      some ")" := by
    rw [hidx, List.get?_cons_succ]
    exact get?_concat_len _ _
  have hiplen : (((0 : Int)) :: ((expandTok ts).map Prod.snd ++ [0])).length =
      (("(" : String) :: ((expandTok ts).map Prod.fst ++ [")"])).length := by
    simp
  have hiplast : (((0 : Int)) :: ((expandTok ts).map Prod.snd ++ [0])).get?
      ((("(" : String) :: ((expandTok ts).map Prod.fst ++ [")"])).length - 1) =
      some 0 := by
    rw [hidx, List.get?_cons_succ, ← hm]
    exact get?_concat_len _ _
  obtain ⟨s, hs⟩ := reconLoop_some
    (("(" : String) :: ((expandTok ts).map Prod.fst ++ [")"]))
    (((0 : Int)) :: ((expandTok ts).map Prod.snd ++ [0]))
    hlast hiplen hiplast
    ((("(" : String) :: ((expandTok ts).map Prod.fst ++ [")"])).length + 1)
    1 ['('] [] rfl le_rfl (by omega)
  simp only [reconstruct, List.cons_append]
  rw [hs]
  rfl

/-- C3: every `'='` token is rewritten to the three tokens `')'`, `'-'`, `'('`
(so `lhs = rhs` becomes `(lhs)-(rhs)`); on the stream `['x','=','5']` (all
baseline roles) the reconstructed expression is `"((x))-(5)"`, which contains
the substring `)-(` and evaluates to `x - 5` for every value of `x`. -/
theorem eq_token_rewrite :
    (∀ (xs ys : List (String × Int)) (rho : Int),
      expandTok (xs ++ ("=", rho) :: ys) =
        expandTok xs ++ (")", 0) :: ("-", 0) :: ("(", 0) :: expandTok ys) ∧
    reconstruct [("x", 0), ("=", 0), ("5", 0)] = some "((x))-(5)" ∧
    (∃ a b : List Char, "((x))-(5)".data = a ++ ')' :: '-' :: '(' :: b) ∧
    ∃ ast, parseE "((x))-(5)" = some ast ∧ ∀ v : Int, evalA ast v = v - 5 := by
  refine ⟨?_, by decide, ⟨['(', '(', 'x', ')'], ['5', ')'], by decide⟩,
    .sub .var (.num 5), by decide, fun v => rfl⟩
  intro xs ys rho
  induction xs with
  | nil => simp [expandTok]
  | cons hd tl ih =>
    obtain ⟨l, r⟩ := hd
    by_cases hl : l = "="
    · simp [expandTok, hl, ih]
    · simp [expandTok, hl, ih]

/-- An all-background raster (no ink anywhere). -/
def rasterBG : Raster := fun _ _ => 255

/-- C6: on an image with zero ink pixels the scan extracts no glyphs, and
reconstruction of the empty glyph stream runs without raising and returns the
parenthesis-balanced degenerate expression `"()"`. -/
theorem empty_ink_reconstruct (H W : Nat) (r : Raster)
    (hno : ∀ a b : Int, 0 ≤ a → a < (H : Int) → 0 ≤ b → b < (W : Int) →
      ¬ (r a b ≤ 123)) :
    img_segment_scan H W r = some [] ∧
    reconstruct [] = some "()" ∧
    parenBalanced "()" = true := by
  refine ⟨?_, by decide, by decide⟩
  unfold img_segment_scan
  exact scanOuter_noink hno (W + 2) 0 0 0 [] le_rfl (by omega)

/-- Witness for C6 on a concrete 2 by 3 all-background raster. -/
theorem empty_ink_reconstruct_witness :
    (∀ a b : Int, 0 ≤ a → a < ((2 : Nat) : Int) → 0 ≤ b → b < ((3 : Nat) : Int) →
      ¬ (rasterBG a b ≤ 123)) ∧
    (img_segment_scan 2 3 rasterBG = some [] ∧
      reconstruct [] = some "()" ∧
      parenBalanced "()" = true) := by
  have hno : ∀ a b : Int, 0 ≤ a → a < ((2 : Nat) : Int) → 0 ≤ b →
      b < ((3 : Nat) : Int) → ¬ (rasterBG a b ≤ 123) := by
    intro a b _ _ _ _
    simp [rasterBG]
  exact ⟨hno, empty_ink_reconstruct 2 3 rasterBG hno⟩

/-- C9 counterexample: reconstruction of
`[BASELINE '2', BASELINE 'x', BASELINE '+', BASELINE '3']` yields
`"(2*(x)+3)"` (the general-symbol branch wraps `x` in its own parentheses),
which is not the claimed string `"(2*x+3)"`. -/
theorem reconstruct_2x3_counterexample :
    reconstruct [("2", 0), ("x", 0), ("+", 0), ("3", 0)] = some "(2*(x)+3)" ∧
    reconstruct [("2", 0), ("x", 0), ("+", 0), ("3", 0)] ≠ some "(2*x+3)" :=
  ⟨by decide, by decide⟩

/-- C9 amended: reconstruction of the stream yields `"(2*(x)+3)"`, which is
algebraically equivalent to `2*x+3` (it evaluates to `2*v+3` for every integer
`v`). -/
theorem reconstruct_2x3_amended :
    reconstruct [("2", 0), ("x", 0), ("+", 0), ("3", 0)] = some "(2*(x)+3)" ∧
    ∃ ast, parseE "(2*(x)+3)" = some ast ∧ ∀ v : Int, evalA ast v = 2 * v + 3 :=
  ⟨by decide, .add (.mul (.num 2) .var) (.num 3), by decide, fun v => rfl⟩

/-- The sentinel failure string of `sympySolver.solveIt`. -/
def errorSentinel : String := "Error occured while Solving Equation"

/-- The `solveIt` adapter of `sympySolver.py`: `solution` is initialized to the
sentinel; inside `try`, `str(solveset(equation))` is computed and returned; a
raised exception (modelled by `Except.error`) is caught by the bare `except:`
and the still-sentinel `solution` is returned.  The external `solveset` is a
parameter. -/
def solveIt {E : Type} (solveset : String → Except E String)
    (equation : String) : Except E String :=
  match solveset equation with
  | .ok v => .ok v
  | .error _ => .ok errorSentinel

/-- C7: `solveIt` always returns normally (never propagates an exception);
when the underlying solver raises — in particular on a malformed expression —
it returns exactly the sentinel string, and when the solver succeeds it
returns the solver's string. -/
theorem solveIt_sentinel {E : Type} (solveset : String → Except E String)
    (equation : String) :
    (∃ s, solveIt solveset equation = Except.ok s) ∧
    (∀ e : E, solveset equation = Except.error e →
      solveIt solveset equation = Except.ok errorSentinel) ∧
    (∀ v : String, solveset equation = Except.ok v →
      solveIt solveset equation = Except.ok v) := by
  cases h : solveset equation with
  | ok v =>
    refine ⟨⟨v, by simp [solveIt, h]⟩, ?_, ?_⟩
    · intro e he
      exact Except.noConfusion he
    · intro v' hv
      cases hv
      simp [solveIt, h]
  | error e =>
    refine ⟨⟨errorSentinel, by simp [solveIt, h]⟩, ?_, ?_⟩
    · intro e' _
      simp [solveIt, h]
    · intro v' hv
      exact Except.noConfusion hv

/-- Witness for C7 with a concrete always-raising solver and a malformed
expression. -/
theorem solveIt_sentinel_witness :
    (∃ s, solveIt (fun _ => (Except.error "parse error" : Except String String))
        "x+" = Except.ok s) ∧
    (∀ e : String, (fun _ => (Except.error "parse error" : Except String String)) "x+" =
        Except.error e →
      solveIt (fun _ => (Except.error "parse error" : Except String String)) "x+" =
        Except.ok errorSentinel) ∧
    (∀ v : String, (fun _ => (Except.error "parse error" : Except String String)) "x+" =
        Except.ok v →
      solveIt (fun _ => (Except.error "parse error" : Except String String)) "x+" =
        Except.ok v) :=
  solveIt_sentinel (fun _ => (Except.error "parse error" : Except String String)) "x+"
